import Mathlib

/-!
Verification of the `engine` package of the yagi repository.

The definitions below are a shallow embedding of `engine/engine.go`:
message and tool-call shapes, the stream assembler (`processStreamResponse`),
the retrying request runner (`chat`), the tool execution coordinator
(`executeToolsConcurrently` / `executeTool`), the context compressor
(`compressContext` / `summarizeMessages`), the registry mutator
(`RegisterTool`), and the orchestrator loop (`Chat`).
Go maps keyed by `int`/`string` are embedded as association lists,
goroutine completion order as an explicit schedule of index writes,
and wall-clock backoff as an accumulated count of waited seconds.
-/

set_option maxHeartbeats 1000000

namespace Yagi

/-! ## Constants from the go-openai client library -/

def FinishReasonToolCalls : String := "tool_calls"

def ChatMessageRoleSystem : String := "system"

def ChatMessageRoleUser : String := "user"

def ChatMessageRoleAssistant : String := "assistant"

def ChatMessageRoleTool : String := "tool"

/-! ## Data model: tool calls, deltas, messages -/

/-- `openai.FunctionCall`: name and raw argument text of one tool call. -/
structure FunctionCall where
  name : String
  arguments : String
deriving DecidableEq

/-- `openai.ToolCall` as assembled by the engine: id, type and function. -/
structure ToolCall where
  id : String
  type : String
  function : FunctionCall
deriving DecidableEq

/-- A streamed tool-call fragment (`openai.ToolCall` inside a delta, with
its optional position `Index` pointer). -/
structure ToolCallDelta where
  index : Option Nat
  id : String
  type : String
  function : FunctionCall
deriving DecidableEq

/-- `openai.ChatCompletionMessage` restricted to the fields the engine
reads and writes: role, content, tool calls, tool-call-id back-reference. -/
structure Msg where
  role : String
  content : String
  toolCalls : List ToolCall
  toolCallID : String
deriving DecidableEq

/-! ## The stream assembler's per-index map

`processStreamResponse` keeps `toolCallsMap map[int]*openai.ToolCall`.
We embed it as an association list with unique keys; insertion appends,
updates rewrite the existing entry in place. -/

def mapLookup : List (Nat × ToolCall) → Nat → Option ToolCall
  | [], _ => none
  | (k, v) :: rest, i => if k = i then some v else mapLookup rest i

def mapUpdate : List (Nat × ToolCall) → Nat → ToolCall → List (Nat × ToolCall)
  | [], _, _ => []
  | (k, v) :: rest, i, nv => if k = i then (k, nv) :: rest else (k, v) :: mapUpdate rest i nv

/-- `idx := 0; if tc.Index != nil { idx = *tc.Index }` -/
def deltaIndex (d : ToolCallDelta) : Nat := d.index.getD 0

/-- One delta applied to the record at its index: a fresh record on first
sight (the trailing `Arguments +=` makes its arguments the delta's
arguments), otherwise id overwritten when non-empty, name appended when
non-empty, arguments always appended. -/
def applyDeltaAt : Option ToolCall → ToolCallDelta → ToolCall
  | none, d => ⟨d.id, d.type, ⟨d.function.name, d.function.arguments⟩⟩
  | some ex, d =>
    ⟨if d.id ≠ "" then d.id else ex.id,
     ex.type,
     ⟨if d.function.name ≠ "" then ex.function.name ++ d.function.name
      else ex.function.name,
      ex.function.arguments ++ d.function.arguments⟩⟩

/-- The body of `for _, tc := range choice.Delta.ToolCalls { ... }`. -/
def applyToolCallDelta (m : List (Nat × ToolCall)) (d : ToolCallDelta) :
    List (Nat × ToolCall) :=
  match mapLookup m (deltaIndex d) with
  | none => m ++ [(deltaIndex d, applyDeltaAt none d)]
  | some ex => mapUpdate m (deltaIndex d) (applyDeltaAt (some ex) d)

/-- The map state after a whole sequence of tool-call deltas. -/
def assembleToolCalls (ds : List ToolCallDelta) : List (Nat × ToolCall) :=
  ds.foldl applyToolCallDelta []

/-- End-of-stream emission: only when the finish reason is `tool_calls`
and the map is non-empty, scan indices `0 ..= len(map)-1` in ascending
order and keep the records that exist. -/
def emitToolCalls (finishReason : String) (m : List (Nat × ToolCall)) :
    List ToolCall :=
  if finishReason = FinishReasonToolCalls ∧ 0 < m.length then
    (List.range m.length).filterMap (mapLookup m)
  else []

/-! ## Stream chunks and `processStreamResponse` -/

/-- The delta of one streamed choice. -/
structure StreamDelta where
  content : String
  reasoningContent : String
  toolCalls : List ToolCallDelta
deriving DecidableEq

structure StreamChoice where
  delta : StreamDelta
  finishReason : String
deriving DecidableEq

/-- One `stream.Recv()` result that is not an error. -/
structure StreamResponse where
  choices : List StreamChoice
deriving DecidableEq

structure StreamState where
  fullContent : String
  toolCallsMap : List (Nat × ToolCall)
  finishReason : String
deriving DecidableEq

/-- One iteration of the `Recv` loop body on a successful chunk: skip
empty-choice chunks, record the finish reason, append content, fold the
tool-call deltas into the map. -/
def processChunk (st : StreamState) (resp : StreamResponse) : StreamState :=
  match resp.choices with
  | [] => st
  | choice :: _ =>
    { fullContent := st.fullContent ++ choice.delta.content
      toolCallsMap := choice.delta.toolCalls.foldl applyToolCallDelta st.toolCallsMap
      finishReason := choice.finishReason }

/-- `processStreamResponse` on a stream that delivers `chunks` and then
EOF: returns the accumulated text and the emitted tool calls. -/
def processStreamResponse (chunks : List StreamResponse) : String × List ToolCall :=
  let st := chunks.foldl processChunk ⟨"", [], ""⟩
  (st.fullContent, emitToolCalls st.finishReason st.toolCallsMap)

/-! ## Spec-side folds used to state the assembler claims -/

/-- Folding the deltas of a single position index into its record. -/
def foldDeltasAt (cur : Option ToolCall) (ds : List ToolCallDelta) : Option ToolCall :=
  ds.foldl (fun c d => some (applyDeltaAt c d)) cur

/-- Plain concatenation of a list of strings. -/
def strConcat : List String → String
  | [] => ""
  | s :: rest => s ++ strConcat rest

def mapKeys (m : List (Nat × ToolCall)) : List Nat := m.map Prod.fst

/-! ## Assembler lemmas -/

theorem foldDeltasAt_cons (cur : Option ToolCall) (d : ToolCallDelta)
    (t : List ToolCallDelta) :
    foldDeltasAt cur (d :: t) = foldDeltasAt (some (applyDeltaAt cur d)) t := rfl

theorem str_append_empty (s : String) : s ++ "" = s := by
  cases s
  simp [String.append]

theorem mapLookup_append (m : List (Nat × ToolCall)) (j : Nat) (v : ToolCall)
    (i : Nat) :
    mapLookup (m ++ [(j, v)]) i =
      match mapLookup m i with
      | some w => some w
      | none => if j = i then some v else none := by
  induction m with
  | nil => rfl
  | cons kv rest ih =>
    obtain ⟨k, w⟩ := kv
    by_cases hk : k = i <;> simp [mapLookup, hk, ih]

theorem mapLookup_update_ne (m : List (Nat × ToolCall)) (j : Nat) (v : ToolCall)
    (i : Nat) (h : i ≠ j) :
    mapLookup (mapUpdate m j v) i = mapLookup m i := by
  induction m with
  | nil => rfl
  | cons kv rest ih =>
    obtain ⟨k, w⟩ := kv
    simp only [mapUpdate, mapLookup]
    by_cases hk : k = j
    · subst hk
      have hki : ¬ k = i := fun hh => h hh.symm
      simp only [if_pos rfl, mapLookup]
      rw [if_neg hki, if_neg hki]
    · simp only [if_neg hk, mapLookup]
      rw [ih]

theorem mapLookup_update_self (m : List (Nat × ToolCall)) (j : Nat) (v : ToolCall)
    (h : (mapLookup m j).isSome) :
    mapLookup (mapUpdate m j v) j = some v := by
  induction m with
  | nil => simp [mapLookup] at h
  | cons kv rest ih =>
    obtain ⟨k, w⟩ := kv
    by_cases hk : k = j
    · simp [mapUpdate, mapLookup, hk]
    · simp only [mapLookup, hk, if_false, mapUpdate, if_neg hk] at h ⊢
      exact ih h

theorem mapLookup_apply_self (m : List (Nat × ToolCall)) (d : ToolCallDelta) :
    mapLookup (applyToolCallDelta m d) (deltaIndex d) =
      some (applyDeltaAt (mapLookup m (deltaIndex d)) d) := by
  cases hl : mapLookup m (deltaIndex d) with
  | none => simp [applyToolCallDelta, hl, mapLookup_append]
  | some ex =>
    simp only [applyToolCallDelta, hl]
    exact mapLookup_update_self _ _ _ (by simp [hl])

theorem mapLookup_apply_ne (m : List (Nat × ToolCall)) (d : ToolCallDelta)
    (i : Nat) (h : i ≠ deltaIndex d) :
    mapLookup (applyToolCallDelta m d) i = mapLookup m i := by
  cases hl : mapLookup m (deltaIndex d) with
  | none =>
    simp only [applyToolCallDelta, hl]
    rw [mapLookup_append]
    have hdi : ¬ deltaIndex d = i := fun hh => h hh.symm
    cases hm : mapLookup m i <;> simp [hm, hdi]
  | some ex =>
    simp only [applyToolCallDelta, hl]
    exact mapLookup_update_ne _ _ _ _ h

theorem mapLookup_foldl (ds : List ToolCallDelta) :
    ∀ (m : List (Nat × ToolCall)) (i : Nat),
      mapLookup (ds.foldl applyToolCallDelta m) i =
        foldDeltasAt (mapLookup m i) (ds.filter (fun d => deltaIndex d = i)) := by
  induction ds with
  | nil => intro m i; rfl
  | cons d t ih =>
    intro m i
    by_cases hd : deltaIndex d = i
    · subst hd
      rw [List.foldl_cons, ih, mapLookup_apply_self,
          List.filter_cons_of_pos (by simp), foldDeltasAt_cons]
    · rw [List.foldl_cons, ih, mapLookup_apply_ne _ _ _ (fun hh => hd hh.symm),
          List.filter_cons_of_neg (by simp [hd])]

theorem mapKeys_update (m : List (Nat × ToolCall)) (j : Nat) (v : ToolCall) :
    mapKeys (mapUpdate m j v) = mapKeys m := by
  induction m with
  | nil => rfl
  | cons kv rest ih =>
    obtain ⟨k, w⟩ := kv
    by_cases hk : k = j
    · simp [mapUpdate, mapKeys, hk]
    · simp only [mapUpdate, if_neg hk, mapKeys, List.map_cons]
      rw [show List.map Prod.fst (mapUpdate rest j v)
            = mapKeys (mapUpdate rest j v) from rfl, ih]
      rfl

theorem mem_mapKeys_iff (m : List (Nat × ToolCall)) (i : Nat) :
    i ∈ mapKeys m ↔ (mapLookup m i).isSome := by
  induction m with
  | nil => simp [mapKeys, mapLookup]
  | cons kv rest ih =>
    obtain ⟨k, w⟩ := kv
    by_cases hk : k = i
    · subst hk
      simp [mapKeys, mapLookup]
    · have hik : ¬ i = k := fun hh => hk hh.symm
      simp only [mapKeys, List.map_cons, List.mem_cons, mapLookup, if_neg hk]
      rw [show List.map Prod.fst rest = mapKeys rest from rfl, ih]
      simp [hik]

theorem mapKeys_nodup_apply (m : List (Nat × ToolCall)) (d : ToolCallDelta)
    (h : (mapKeys m).Nodup) :
    (mapKeys (applyToolCallDelta m d)).Nodup := by
  cases hl : mapLookup m (deltaIndex d) with
  | none =>
    have hnot : deltaIndex d ∉ mapKeys m := by
      rw [mem_mapKeys_iff, hl]; simp
    simp only [applyToolCallDelta, hl]
    have : mapKeys (m ++ [(deltaIndex d, applyDeltaAt none d)]) =
        mapKeys m ++ [deltaIndex d] := by simp [mapKeys]
    rw [this, List.nodup_append]
    refine ⟨h, List.nodup_singleton _, ?_⟩
    intro a ha hb
    simp at hb
    exact hnot (hb ▸ ha)
  | some ex =>
    simp only [applyToolCallDelta, hl]
    rwa [mapKeys_update]

theorem assemble_keys_nodup (ds : List ToolCallDelta) :
    (mapKeys (assembleToolCalls ds)).Nodup := by
  have gen : ∀ (l : List ToolCallDelta) (m : List (Nat × ToolCall)),
      (mapKeys m).Nodup → (mapKeys (l.foldl applyToolCallDelta m)).Nodup := by
    intro l
    induction l with
    | nil => intro m h; exact h
    | cons d t ih => intro m h; exact ih _ (mapKeys_nodup_apply m d h)
  exact gen ds [] (by simp [mapKeys])

theorem length_eq_of_lookup_eq (m1 m2 : List (Nat × ToolCall))
    (h1 : (mapKeys m1).Nodup) (h2 : (mapKeys m2).Nodup)
    (h : ∀ i, mapLookup m1 i = mapLookup m2 i) : m1.length = m2.length := by
  have hk1 : (mapKeys m1).length = m1.length := by simp [mapKeys]
  have hk2 : (mapKeys m2).length = m2.length := by simp [mapKeys]
  have hfin : (mapKeys m1).toFinset = (mapKeys m2).toFinset := by
    ext i
    simp [List.mem_toFinset, mem_mapKeys_iff, h i]
  calc m1.length = (mapKeys m1).toFinset.card := by
        rw [List.toFinset_card_of_nodup h1, hk1]
    _ = (mapKeys m2).toFinset.card := by rw [hfin]
    _ = m2.length := by rw [List.toFinset_card_of_nodup h2, hk2]

theorem emit_eq_of_lookup_eq (fr : String) (m1 m2 : List (Nat × ToolCall))
    (h1 : (mapKeys m1).Nodup) (h2 : (mapKeys m2).Nodup)
    (h : ∀ i, mapLookup m1 i = mapLookup m2 i) :
    emitToolCalls fr m1 = emitToolCalls fr m2 := by
  have hlen := length_eq_of_lookup_eq m1 m2 h1 h2 h
  unfold emitToolCalls
  rw [hlen]
  by_cases hc : fr = FinishReasonToolCalls ∧ 0 < m2.length
  · simp only [hc, if_true, if_pos hc]
    exact List.filterMap_congr (fun i _ => h i)
  · simp [hc]

theorem applyDeltaAt_some_function (ex : ToolCall) (d : ToolCallDelta) :
    (applyDeltaAt (some ex) d).function.name
        = ex.function.name ++ d.function.name ∧
    (applyDeltaAt (some ex) d).function.arguments
        = ex.function.arguments ++ d.function.arguments := by
  refine ⟨?_, rfl⟩
  show (if d.function.name ≠ "" then ex.function.name ++ d.function.name
        else ex.function.name) = _
  by_cases h : d.function.name = "" <;> simp [h, str_append_empty]

theorem foldDeltasAt_some (ds : List ToolCallDelta) :
    ∀ (c r : ToolCall), foldDeltasAt (some c) ds = some r →
      r.function.name
          = c.function.name ++ strConcat (ds.map (fun d => d.function.name)) ∧
      r.function.arguments
          = c.function.arguments
              ++ strConcat (ds.map (fun d => d.function.arguments)) := by
  induction ds with
  | nil =>
    intro c r h
    obtain rfl : c = r := by simpa [foldDeltasAt] using h
    simp [strConcat, str_append_empty]
  | cons d t ih =>
    intro c r h
    rw [foldDeltasAt_cons] at h
    obtain ⟨hn, ha⟩ := ih _ _ h
    obtain ⟨gn, ga⟩ := applyDeltaAt_some_function c d
    constructor
    · rw [hn, gn]
      show _ = c.function.name ++ (d.function.name ++ _)
      rw [String.append_assoc]
    · rw [ha, ga]
      show _ = c.function.arguments ++ (d.function.arguments ++ _)
      rw [String.append_assoc]

theorem foldDeltasAt_none_some (ds : List ToolCallDelta) (r : ToolCall)
    (h : foldDeltasAt none ds = some r) :
    r.function.name = strConcat (ds.map (fun d => d.function.name)) ∧
    r.function.arguments = strConcat (ds.map (fun d => d.function.arguments)) := by
  cases ds with
  | nil => exact absurd h (by simp [foldDeltasAt])
  | cons d t =>
    rw [foldDeltasAt_cons] at h
    obtain ⟨hn, ha⟩ := foldDeltasAt_some t _ _ h
    exact ⟨hn, ha⟩

/-! ## Claim C1 -/

/-- C1: stream assembly is interleaving-invariant and concatenative.
Any two delta sequences that agree on the per-index subsequences of
tool-call deltas assemble to pointwise-equal records and emit the same
final list of tool-call requests; each assembled record's name and
arguments are the concatenations of all name fragments and all
argument-text fragments seen for that position index. -/
theorem stream_assembly_interleaving_invariant
    (ds1 ds2 : List ToolCallDelta)
    (hinter : ∀ i, ds1.filter (fun d => deltaIndex d = i)
        = ds2.filter (fun d => deltaIndex d = i)) :
    (∀ i, mapLookup (assembleToolCalls ds1) i
        = mapLookup (assembleToolCalls ds2) i)
    ∧ emitToolCalls FinishReasonToolCalls (assembleToolCalls ds1)
        = emitToolCalls FinishReasonToolCalls (assembleToolCalls ds2)
    ∧ (∀ i tc, mapLookup (assembleToolCalls ds1) i = some tc →
        tc.function.name = strConcat ((ds1.filter (fun d => deltaIndex d = i)).map
            (fun d => d.function.name))
        ∧ tc.function.arguments
            = strConcat ((ds1.filter (fun d => deltaIndex d = i)).map
                (fun d => d.function.arguments))) := by
  have hl : ∀ i, mapLookup (assembleToolCalls ds1) i
      = mapLookup (assembleToolCalls ds2) i := by
    intro i
    rw [show assembleToolCalls ds1 = ds1.foldl applyToolCallDelta [] from rfl,
        show assembleToolCalls ds2 = ds2.foldl applyToolCallDelta [] from rfl,
        mapLookup_foldl, mapLookup_foldl, hinter i]
  refine ⟨hl, ?_, ?_⟩
  · exact emit_eq_of_lookup_eq _ _ _ (assemble_keys_nodup ds1)
      (assemble_keys_nodup ds2) hl
  · intro i tc htc
    rw [show assembleToolCalls ds1 = ds1.foldl applyToolCallDelta [] from rfl,
        mapLookup_foldl] at htc
    exact foldDeltasAt_none_some _ _ htc

def cDeltaA0 : ToolCallDelta := ⟨some 0, "call_A", "function", ⟨"get_wea", "nor"⟩⟩

def cDeltaA1 : ToolCallDelta := ⟨some 0, "", "", ⟨"ther", "th"⟩⟩

def cDeltaB0 : ToolCallDelta := ⟨some 1, "call_B", "function", ⟨"sea", "foo"⟩⟩

def cDeltaB1 : ToolCallDelta := ⟨some 1, "", "", ⟨"rch", "bar"⟩⟩

/-- The two indices' deltas delivered round-robin. -/
def cDeltasOrderA : List ToolCallDelta := [cDeltaA0, cDeltaB0, cDeltaA1, cDeltaB1]

/-- The same deltas delivered index-by-index. -/
def cDeltasOrderB : List ToolCallDelta := [cDeltaA0, cDeltaA1, cDeltaB0, cDeltaB1]

theorem stream_assembly_interleaving_invariant_witness :
    emitToolCalls FinishReasonToolCalls (assembleToolCalls cDeltasOrderA)
      = emitToolCalls FinishReasonToolCalls (assembleToolCalls cDeltasOrderB) :=
  (stream_assembly_interleaving_invariant cDeltasOrderA cDeltasOrderB
    (by
      intro i
      match i with
      | 0 => rfl
      | 1 => rfl
      | (n+2) =>
        have hA : cDeltasOrderA.filter (fun d => deltaIndex d = (n+2)) = [] := by
          simp only [cDeltasOrderA, cDeltaA0, cDeltaA1, cDeltaB0, cDeltaB1,
            List.filter, deltaIndex]
          simp [Option.getD]
        have hB : cDeltasOrderB.filter (fun d => deltaIndex d = (n+2)) = [] := by
          simp only [cDeltasOrderB, cDeltaA0, cDeltaA1, cDeltaB0, cDeltaB1,
            List.filter, deltaIndex]
          simp [Option.getD]
        rw [hA, hB])).2.1

/-! ## Claim C2 -/

def c2DeltaLow : ToolCallDelta :=
  ⟨some 0, "call_low", "function", ⟨"tool_low", "arglow"⟩⟩

def c2DeltaHigh : ToolCallDelta :=
  ⟨some 2, "call_high", "function", ⟨"tool_high", "arghigh"⟩⟩

/-- A stream whose deltas populate position indices 0 and 2 and whose
terminal finish reason is `tool_calls`. -/
def c2Chunks : List StreamResponse :=
  [⟨[⟨⟨"", "", [c2DeltaLow, c2DeltaHigh]⟩, ""⟩]⟩,
   ⟨[⟨⟨"", "", []⟩, "tool_calls"⟩]⟩]

/-- C2 counterexample: the record assembled at position index 2 exists at
emission time, yet the emitted list contains only the index-0 record: the
emission loop scans indices `0 ..< size of the map`, so with a gap at
index 1 the record held at index 2 is dropped, not emitted. -/
theorem emit_drops_high_index_record :
    mapLookup (assembleToolCalls [c2DeltaLow, c2DeltaHigh]) 2
        = some ⟨"call_high", "function", ⟨"tool_high", "arghigh"⟩⟩ ∧
    (processStreamResponse c2Chunks).2
        = [⟨"call_low", "function", ⟨"tool_low", "arglow"⟩⟩] := by
  constructor <;> rfl

/-- C2 amended: at stream end, if the finish reason is not `tool_calls`
no tool-call requests are emitted even when partial records exist; if it
is `tool_calls`, the records at position indices `0 ..< number of
assembled records` are emitted in ascending index order, each index with
no record being skipped — records held at indices at or above the record
count are dropped. -/
theorem emit_tool_calls_characterization (ds : List ToolCallDelta) (fr : String) :
    (fr ≠ FinishReasonToolCalls →
        emitToolCalls fr (assembleToolCalls ds) = []) ∧
    (fr = FinishReasonToolCalls →
        emitToolCalls fr (assembleToolCalls ds) =
          (List.range (assembleToolCalls ds).length).filterMap
            (fun i => foldDeltasAt none (ds.filter (fun d => deltaIndex d = i)))) := by
  constructor
  · intro h
    simp [emitToolCalls, h]
  · intro h
    unfold emitToolCalls
    by_cases hl : 0 < (assembleToolCalls ds).length
    · rw [if_pos ⟨h, hl⟩]
      apply List.filterMap_congr
      intro i _
      rw [show assembleToolCalls ds = ds.foldl applyToolCallDelta [] from rfl,
          mapLookup_foldl]
      rfl
    · rw [if_neg (fun hc => hl hc.2)]
      have hz : (assembleToolCalls ds).length = 0 := by omega
      rw [hz]
      rfl

theorem emit_tool_calls_characterization_witness :
    emitToolCalls "stop" (assembleToolCalls [c2DeltaLow, c2DeltaHigh]) = [] :=
  (emit_tool_calls_characterization [c2DeltaLow, c2DeltaHigh] "stop").1 (by decide)

/-! ## Tool registry, `executeTool`, `executeToolsConcurrently` -/

/-- `ToolFunc`: a handler from raw argument text to result text or error. -/
def ToolFunc := String → Except String String

/-- `openai.FunctionDefinition`: name, description and the opaque
JSON-schema parameter blob. -/
structure FunctionDefinition where
  name : String
  description : String
  parameters : String
deriving DecidableEq

/-- `openai.Tool`. -/
structure Tool where
  type : String
  function : FunctionDefinition
deriving DecidableEq

def ToolTypeFunction : String := "function"

/-- The `Engine` fields the registry and the tool coordinator read:
declaration slice, handler map, trust-metadata map, alternatives table,
optional approver. -/
structure Engine where
  tools : List Tool
  toolFuncs : List (String × ToolFunc)
  toolMeta : List (String × Bool)
  toolAlts : List (String × List String)
  approver : Option (String → String → Except String Bool)

/-- Go map read `m[k]` returning `ok`. -/
def lookupStr {α : Type} : List (String × α) → String → Option α
  | [], _ => none
  | (k, v) :: rest, s => if k = s then some v else lookupStr rest s

/-- Go map assignment `m[k] = v`. -/
def mapSet {α : Type} : List (String × α) → String → α → List (String × α)
  | [], k, v => [(k, v)]
  | (k', v') :: rest, k, v =>
    if k' = k then (k', v) :: rest else (k', v') :: mapSet rest k v

/-- `RegisterTool`: appends the declaration and assigns the handler and
trust maps. -/
def RegisterTool (e : Engine) (name description parameters : String)
    (fn : ToolFunc) (safe : Bool) : Engine :=
  { e with
    tools := e.tools ++ [⟨ToolTypeFunction, ⟨name, description, parameters⟩⟩],
    toolFuncs := mapSet e.toolFuncs name fn,
    toolMeta := mapSet e.toolMeta name safe }

/-- `suggestAlternatives`: the statically configured alternatives that are
actually registered, rendered as a parenthetical suffix. -/
def suggestAlternatives (e : Engine) (name : String) : String :=
  match lookupStr e.toolAlts name with
  | none => ""
  | some alts =>
    let available := alts.filter (fun alt => (lookupStr e.toolFuncs alt).isSome)
    if available.length = 0 then ""
    else " (alternatives: " ++ String.intercalate ", " available ++ ")"

/-- `executeTool`: unknown-tool text, approval gate for non-safe tools,
then the handler, with errors rendered as text results. -/
def executeTool (e : Engine) (name arguments : String) : String × Bool :=
  match lookupStr e.toolFuncs name with
  | none => ("Unknown tool: " ++ name, true)
  | some fn =>
    let safe := (lookupStr e.toolMeta name).getD false
    let gate : Option (String × Bool) :=
      if ¬ safe then
        match e.approver with
        | none => none
        | some approve =>
          match approve name arguments with
          | .error err => some ("Error: approval failed: " ++ err, true)
          | .ok false => some ("Error: Tool not approved by user", true)
          | .ok true => none
      else none
    match gate with
    | some r => r
    | none =>
      match fn arguments with
      | .error err => ("Error: " ++ err ++ suggestAlternatives e name, true)
      | .ok result => (result, false)

/-- The `toolResult` record written into `results[i]`. -/
structure ToolResult where
  id : String
  output : String
  isError : Bool
deriving DecidableEq

/-- What goroutine `i` writes into `results[i]`. -/
def computeToolResult (e : Engine) (tc : ToolCall) : ToolResult :=
  let r := executeTool e tc.function.name tc.function.arguments
  ⟨tc.id, r.1, r.2⟩

/-- One goroutine completion: the indexed write `results[i] = ...`. -/
def toolWrite (e : Engine) (toolCalls : List ToolCall)
    (st : List ToolResult) (i : Nat) : List ToolResult :=
  match toolCalls[i]? with
  | some tc => st.set i (computeToolResult e tc)
  | none => st

/-- The `results` slice after the goroutines complete in the order given
by `schedule` (the slice starts as Go zero values, `wg.Wait()` requires
every index to appear in the schedule). -/
def runToolGoroutines (e : Engine) (toolCalls : List ToolCall)
    (schedule : List Nat) : List ToolResult :=
  schedule.foldl (toolWrite e toolCalls)
    (List.replicate toolCalls.length ⟨"", "", false⟩)

/-- `executeToolsConcurrently`: run the batch, then build the tool-role
messages from the completed `results` slice in index order. -/
def executeToolsConcurrently (e : Engine) (toolCalls : List ToolCall)
    (schedule : List Nat) : List Msg × List ToolResult :=
  let results := runToolGoroutines e toolCalls schedule
  (results.map (fun r => ⟨ChatMessageRoleTool, r.output, [], r.id⟩), results)

theorem toolWrite_length (e : Engine) (toolCalls : List ToolCall)
    (st : List ToolResult) (i : Nat) :
    (toolWrite e toolCalls st i).length = st.length := by
  unfold toolWrite
  cases toolCalls[i]? <;> simp

theorem runWrites_length (e : Engine) (toolCalls : List ToolCall) :
    ∀ (σ : List Nat) (st : List ToolResult),
      (σ.foldl (toolWrite e toolCalls) st).length = st.length := by
  intro σ
  induction σ with
  | nil => intro st; rfl
  | cons j t ih =>
    intro st
    rw [List.foldl_cons, ih, toolWrite_length]

theorem runWrites_get_not_mem (e : Engine) (toolCalls : List ToolCall) :
    ∀ (σ : List Nat) (st : List ToolResult) (i : Nat), i ∉ σ →
      (σ.foldl (toolWrite e toolCalls) st)[i]? = st[i]? := by
  intro σ
  induction σ with
  | nil => intro st i _; rfl
  | cons j t ih =>
    intro st i hi
    rw [List.foldl_cons, ih _ _ (fun hm => hi (List.mem_cons_of_mem _ hm))]
    unfold toolWrite
    cases toolCalls[j]? with
    | none => rfl
    | some tc =>
      refine List.getElem?_set_ne ?_
      intro hh
      exact hi (by rw [hh]; exact List.mem_cons_self i t)

theorem runWrites_get_mem (e : Engine) (toolCalls : List ToolCall) :
    ∀ (σ : List Nat) (st : List ToolResult) (i : Nat) (tc : ToolCall),
      st.length = toolCalls.length → toolCalls[i]? = some tc → i ∈ σ →
      (σ.foldl (toolWrite e toolCalls) st)[i]? = some (computeToolResult e tc) := by
  intro σ
  induction σ with
  | nil => intro st i tc _ _ hi; exact absurd hi (List.not_mem_nil i)
  | cons j t ih =>
    intro st i tc hlen htc hi
    by_cases hmem : i ∈ t
    · exact ih _ _ _ (by rw [toolWrite_length]; exact hlen) htc hmem
    · have hij : i = j := by
        rcases List.mem_cons.mp hi with h | h
        · exact h
        · exact absurd h hmem
      subst hij
      rw [List.foldl_cons, runWrites_get_not_mem _ _ _ _ _ hmem]
      unfold toolWrite
      rw [htc]
      have hlt : i < st.length := by
        rw [hlen]
        obtain ⟨hlt', _⟩ := List.getElem?_eq_some.mp htc
        exact hlt'
      rw [List.getElem?_set_self', List.getElem?_eq_getElem hlt]
      rfl

theorem runToolGoroutines_complete (e : Engine) (toolCalls : List ToolCall)
    (schedule : List Nat)
    (hsched : ∀ i, i < toolCalls.length → i ∈ schedule) :
    runToolGoroutines e toolCalls schedule
        = toolCalls.map (computeToolResult e) := by
  apply List.ext_getElem?
  intro i
  by_cases hi : i < toolCalls.length
  · have htc : toolCalls[i]? = some toolCalls[i] := List.getElem?_eq_getElem hi
    rw [runToolGoroutines,
        runWrites_get_mem e toolCalls schedule _ i toolCalls[i]
          (by simp) htc (hsched i hi)]
    simp [htc]
  · have h1 : (runToolGoroutines e toolCalls schedule)[i]? = none := by
      apply List.getElem?_eq_none
      rw [runToolGoroutines, runWrites_length]
      simp
      omega
    have h2 : (toolCalls.map (computeToolResult e))[i]? = none := by
      apply List.getElem?_eq_none
      simp
      omega
    rw [h1, h2]

/-! ## Claim C3 -/

/-- C3: for every batch of K ≥ 1 tool-call requests and every completion
order of the concurrent executions, the coordinator returns exactly K
tool-role result messages in the same order as the input requests, and
the i-th message's tool-call-id back-reference equals the id of the i-th
request. -/
theorem execute_tools_ordered (e : Engine) (toolCalls : List ToolCall)
    (schedule : List Nat)
    (hK : 1 ≤ toolCalls.length)
    (hsched : ∀ i, i < toolCalls.length → i ∈ schedule) :
    (executeToolsConcurrently e toolCalls schedule).1
        = toolCalls.map (fun tc =>
            ⟨ChatMessageRoleTool, (computeToolResult e tc).output, [], tc.id⟩)
    ∧ (executeToolsConcurrently e toolCalls schedule).1.length
        = toolCalls.length
    ∧ ∀ i : Nat, (((executeToolsConcurrently e toolCalls schedule).1)[i]?).map
          Msg.toolCallID = (toolCalls[i]?).map ToolCall.id := by
  have hrun := runToolGoroutines_complete e toolCalls schedule hsched
  have hmsgs : (executeToolsConcurrently e toolCalls schedule).1
      = toolCalls.map (fun tc =>
          ⟨ChatMessageRoleTool, (computeToolResult e tc).output, [], tc.id⟩) := by
    show (runToolGoroutines e toolCalls schedule).map
        (fun r => (⟨ChatMessageRoleTool, r.output, [], r.id⟩ : Msg)) = _
    rw [hrun, List.map_map]
    rfl
  refine ⟨hmsgs, ?_, ?_⟩
  · rw [hmsgs]
    simp
  · intro i
    rw [hmsgs]
    simp only [List.getElem?_map, Option.map_map]
    cases toolCalls[i]? <;> rfl

/-- The registry for the witness batch: a single safe `echo` tool. -/
def echoEngine : Engine :=
  ⟨[⟨ToolTypeFunction, ⟨"echo", "echoes input", "schema"⟩⟩],
   [("echo", fun args => .ok ("result:" ++ args))],
   [("echo", true)], [], none⟩

def cBatch : List ToolCall :=
  [⟨"call_1", "function", ⟨"echo", "hello"⟩⟩,
   ⟨"call_2", "function", ⟨"bogus", "x"⟩⟩]

theorem execute_tools_ordered_witness :
    (executeToolsConcurrently echoEngine cBatch [1, 0]).1
      = cBatch.map (fun tc =>
          ⟨ChatMessageRoleTool, (computeToolResult echoEngine tc).output, [], tc.id⟩) :=
  (execute_tools_ordered echoEngine cBatch [1, 0] (by decide)
    (by decide)).1

/-! ## Claim C9 -/

theorem lookupStr_mapSet_self {α : Type} (m : List (String × α)) (k : String)
    (v : α) : lookupStr (mapSet m k v) k = some v := by
  induction m with
  | nil => simp [mapSet, lookupStr]
  | cons kv rest ih =>
    obtain ⟨k', v'⟩ := kv
    by_cases hk : k' = k
    · simp [mapSet, lookupStr, hk]
    · simp [mapSet, lookupStr, hk, ih]

theorem mem_mapSet_keys {α : Type} (m : List (String × α)) (k : String) (v : α)
    (x : String) :
    x ∈ (mapSet m k v).map Prod.fst ↔ x ∈ m.map Prod.fst ∨ x = k := by
  induction m with
  | nil => simp [mapSet]
  | cons kv rest ih =>
    obtain ⟨k', v'⟩ := kv
    by_cases hk : k' = k
    · subst hk
      simp [mapSet, List.mem_cons]
      tauto
    · simp only [mapSet, if_neg hk, List.map_cons, List.mem_cons, ih]
      tauto

theorem mapSet_keys_nodup {α : Type} (m : List (String × α)) (k : String) (v : α)
    (h : (m.map Prod.fst).Nodup) : ((mapSet m k v).map Prod.fst).Nodup := by
  induction m with
  | nil => simp [mapSet]
  | cons kv rest ih =>
    obtain ⟨k', v'⟩ := kv
    simp only [List.map_cons, List.nodup_cons] at h
    by_cases hk : k' = k
    · simp only [mapSet, if_pos hk, List.map_cons, List.nodup_cons]
      exact h
    · simp only [mapSet, if_neg hk, List.map_cons, List.nodup_cons]
      refine ⟨?_, ih h.2⟩
      rw [mem_mapSet_keys]
      rintro (hm | hm)
      · exact h.1 hm
      · exact hk hm

def regFn1 : ToolFunc := fun _ => .ok "one"

def regFn2 : ToolFunc := fun _ => .ok "two"

def emptyEngine : Engine := ⟨[], [], [], [], none⟩

/-- The registry after registering the same name twice. -/
def engineAfterReRegister : Engine :=
  RegisterTool (RegisterTool emptyEngine "dup_tool" "first" "schemaA" regFn1 true)
    "dup_tool" "second" "schemaB" regFn2 false

/-- C9 counterexample: registering a name that is already registered does
not leave exactly one entry for that name — the declaration slice ends up
holding two declarations named `dup_tool`, because `RegisterTool` appends
to `e.tools` unconditionally while only the handler and trust maps are
overwritten. -/
theorem register_tool_duplicates_declaration :
    engineAfterReRegister.tools.map (fun t => t.function.name)
        = ["dup_tool", "dup_tool"]
    ∧ engineAfterReRegister.tools.length = 2
    ∧ (engineAfterReRegister.tools.map (fun t => t.function.description))
        = ["first", "second"] :=
  ⟨rfl, rfl, rfl⟩

/-- C9 amended: re-registering a name overwrites the prior handler and
trust-flag entries — the maps keep exactly one, most recent, entry per
name (uniqueness of map keys is preserved) — but the JSON-schema
declaration is appended to the tool list again rather than replaced. -/
theorem register_tool_overwrites_maps (e : Engine)
    (name description parameters : String) (fn : ToolFunc) (safe : Bool) :
    lookupStr (RegisterTool e name description parameters fn safe).toolFuncs name
        = some fn
    ∧ lookupStr (RegisterTool e name description parameters fn safe).toolMeta name
        = some safe
    ∧ (RegisterTool e name description parameters fn safe).tools
        = e.tools ++ [⟨ToolTypeFunction, ⟨name, description, parameters⟩⟩]
    ∧ ((e.toolFuncs.map Prod.fst).Nodup →
        ((RegisterTool e name description parameters fn safe).toolFuncs.map
            Prod.fst).Nodup) := by
  refine ⟨lookupStr_mapSet_self _ _ _, lookupStr_mapSet_self _ _ _, rfl, ?_⟩
  intro h
  exact mapSet_keys_nodup _ _ _ h

theorem register_tool_overwrites_maps_witness :
    lookupStr engineAfterReRegister.toolFuncs "dup_tool" = some regFn2
    ∧ ((engineAfterReRegister.toolFuncs.map Prod.fst).Nodup) := by
  have h := register_tool_overwrites_maps
    (RegisterTool emptyEngine "dup_tool" "first" "schemaA" regFn1 true)
    "dup_tool" "second" "schemaB" regFn2 false
  exact ⟨h.1, h.2.2.2 (by simp [RegisterTool, emptyEngine, mapSet])⟩

/-! ## The retrying request runner `chat` -/

/-- Error values the runner observes, returns or wraps. -/
inductive GoError
  | transportErr : Nat → GoError
  | contextCanceled : GoError
  | failedAfterRetries : Nat → Option GoError → GoError

/-- The outcome of one attempt: connection failure
(`CreateChatCompletionStream` returned an error), stream failure
(`processStreamResponse` returned an error), or a processed stream. -/
inductive AttemptOutcome
  | connError : GoError → AttemptOutcome
  | streamError : GoError → AttemptOutcome
  | success : String → List ToolCall → AttemptOutcome

def AttemptOutcome.isFailure : AttemptOutcome → Bool
  | .connError _ => true
  | .streamError _ => true
  | .success _ _ => false

def AttemptOutcome.errOf : AttemptOutcome → Option GoError
  | .connError e => some e
  | .streamError e => some e
  | .success _ _ => none

/-- What `chat` returns, instrumented with the number of attempts made
(calls into the client) and the seconds spent in backoff waits. -/
structure ChatOutcome where
  content : String
  toolCalls : List ToolCall
  err : Option GoError
  attempts : Nat
  waitedSeconds : Nat

/-- The retry loop of `chat` from a given attempt number. `remaining`
counts loop iterations left (`maxRetries + 1` on entry). Before every
attempt but the first the runner checks cancellation — returning
`lastErr`, not the cancellation error — and otherwise sleeps
`1 << (attempt-1)` seconds; a failed attempt records `lastErr` and
continues; falling off the loop returns the wrapped
"failed after N retries" error. -/
def chatAttemptsFrom (transport : Nat → AttemptOutcome) (cancelled : Nat → Bool)
    (maxRetries : Nat) :
    Nat → Nat → Option GoError → Nat → Nat → ChatOutcome
  | 0, _, lastErr, made, waited =>
    ⟨"", [], some (.failedAfterRetries maxRetries lastErr), made, waited⟩
  | r + 1, attempt, lastErr, made, waited =>
    if 0 < attempt ∧ cancelled attempt then
      ⟨"", [], lastErr, made, waited⟩
    else
      let waited' := if 0 < attempt then waited + 2 ^ (attempt - 1) else waited
      match transport attempt with
      | .connError e =>
        chatAttemptsFrom transport cancelled maxRetries r (attempt + 1) (some e)
          (made + 1) waited'
      | .streamError e =>
        chatAttemptsFrom transport cancelled maxRetries r (attempt + 1) (some e)
          (made + 1) waited'
      | .success c tcs => ⟨c, tcs, none, made + 1, waited'⟩

/-- `chat`'s retry loop entered at attempt 0 with no last error. -/
def chatModel (transport : Nat → AttemptOutcome) (cancelled : Nat → Bool)
    (maxRetries : Nat) : ChatOutcome :=
  chatAttemptsFrom transport cancelled maxRetries (maxRetries + 1) 0 none 0 0

theorem chatAttempts_all_fail (transport : Nat → AttemptOutcome)
    (cancelled : Nat → Bool) (R : Nat)
    (hfail : ∀ k, (transport k).isFailure = true)
    (hnc : ∀ k, cancelled k = false) :
    ∀ (r attempt : Nat) (lastErr : Option GoError) (made waited : Nat),
      1 ≤ attempt →
      ∃ le, chatAttemptsFrom transport cancelled R r attempt lastErr made waited
        = ⟨"", [], some (.failedAfterRetries R le), made + r,
            waited + 2 ^ (attempt - 1) * (2 ^ r - 1)⟩ := by
  intro r
  induction r with
  | zero =>
    intro attempt lastErr made waited _
    exact ⟨lastErr, by simp [chatAttemptsFrom]⟩
  | succ r ih =>
    intro attempt lastErr made waited ha
    have hcond : ¬ (0 < attempt ∧ cancelled attempt = true) := by
      simp [hnc attempt]
    obtain ⟨a, rfl⟩ : ∃ a, attempt = a + 1 := ⟨attempt - 1, by omega⟩
    have harith : ∀ W : Nat, W + 2 ^ (a + 1 - 1) + 2 ^ (a + 2 - 1) * (2 ^ r - 1)
        = W + 2 ^ (a + 1 - 1) * (2 ^ (r + 1) - 1) := by
      intro W
      obtain ⟨C, hC⟩ : ∃ C, (2:Nat) ^ r = C + 1 :=
        ⟨2 ^ r - 1, by have := Nat.one_le_two_pow (n := r); omega⟩
      have h1 : a + 1 - 1 = a := by omega
      have h2 : a + 2 - 1 = a + 1 := by omega
      rw [h1, h2, pow_succ, pow_succ, hC, Nat.add_sub_cancel]
      have h3 : (C + 1) * 2 - 1 = 2 * C + 1 := by omega
      rw [h3]
      ring
    cases htr : transport (a + 1) with
    | success c tcs =>
      have hf := hfail (a + 1)
      rw [htr] at hf
      simp [AttemptOutcome.isFailure] at hf
    | connError e =>
      obtain ⟨le, hle⟩ := ih (a + 2) (some e) (made + 1)
        (waited + 2 ^ (a + 1 - 1)) (by omega)
      refine ⟨le, ?_⟩
      simp only [chatAttemptsFrom, htr]
      rw [if_neg hcond, if_pos (Nat.succ_pos a), hle,
          show made + 1 + r = made + (r + 1) from by omega, harith waited]
    | streamError e =>
      obtain ⟨le, hle⟩ := ih (a + 2) (some e) (made + 1)
        (waited + 2 ^ (a + 1 - 1)) (by omega)
      refine ⟨le, ?_⟩
      simp only [chatAttemptsFrom, htr]
      rw [if_neg hcond, if_pos (Nat.succ_pos a), hle,
          show made + 1 + r = made + (r + 1) from by omega, harith waited]

/-! ## Claim C4 -/

/-- C4: a runner with max-retries = R whose transport always fails makes
exactly R+1 attempts, waits the doubling backoff series
1 + 2 + ... + 2^(R-1) = 2^R - 1 seconds, and then returns the wrapped
retries-exhausted error. -/
theorem chat_retry_budget (transport : Nat → AttemptOutcome)
    (cancelled : Nat → Bool) (R : Nat)
    (hfail : ∀ k, (transport k).isFailure = true)
    (hnc : ∀ k, cancelled k = false) :
    ∃ le, chatModel transport cancelled R
      = ⟨"", [], some (.failedAfterRetries R le), R + 1, 2 ^ R - 1⟩ := by
  unfold chatModel
  cases htr : transport 0 with
  | success c tcs =>
    have hf := hfail 0
    rw [htr] at hf
    simp [AttemptOutcome.isFailure] at hf
  | connError e =>
    obtain ⟨le, hle⟩ := chatAttempts_all_fail transport cancelled R hfail hnc
      R 1 (some e) 1 0 (by omega)
    refine ⟨le, ?_⟩
    simp only [chatAttemptsFrom, htr]
    rw [if_neg (by simp), if_neg (by omega), hle,
        show 1 + R = R + 1 from by omega,
        show 0 + 2 ^ (1 - 1) * (2 ^ R - 1) = 2 ^ R - 1 from by simp]
  | streamError e =>
    obtain ⟨le, hle⟩ := chatAttempts_all_fail transport cancelled R hfail hnc
      R 1 (some e) 1 0 (by omega)
    refine ⟨le, ?_⟩
    simp only [chatAttemptsFrom, htr]
    rw [if_neg (by simp), if_neg (by omega), hle,
        show 1 + R = R + 1 from by omega,
        show 0 + 2 ^ (1 - 1) * (2 ^ R - 1) = 2 ^ R - 1 from by simp]

theorem chat_retry_budget_witness :
    (chatModel (fun k => .connError (.transportErr k)) (fun _ => false) 2).attempts = 3
    ∧ (chatModel (fun k => .connError (.transportErr k)) (fun _ => false) 2).waitedSeconds = 3
    ∧ (chatModel (fun k => .connError (.transportErr k)) (fun _ => false) 2).err
        = some (.failedAfterRetries 2 (some (.transportErr 2))) := by
  obtain ⟨le, h⟩ := chat_retry_budget (fun k => .connError (.transportErr k))
    (fun _ => false) 2 (fun _ => rfl) (fun _ => rfl)
  refine ⟨by rw [h], by rw [h]; rfl, ?_⟩
  have : (chatModel (fun k => .connError (.transportErr k)) (fun _ => false) 2).err
      = some (.failedAfterRetries 2 le) := by rw [h]
  rw [show (chatModel (fun k => .connError (.transportErr k)) (fun _ => false) 2)
      = ⟨"", [], some (.failedAfterRetries 2 (some (.transportErr 2))), 3, 3⟩ from rfl]

/-! ## Claim C5 -/

theorem chatAttempts_cancelled (transport : Nat → AttemptOutcome)
    (cancelled : Nat → Bool) (R k : Nat)
    (hcancel : cancelled k = true)
    (hfail : ∀ j, j < k → (transport j).isFailure = true)
    (hnc : ∀ j, 1 ≤ j → j < k → cancelled j = false) :
    ∀ (d attempt r : Nat) (lastErr : Option GoError) (made waited : Nat),
      1 ≤ attempt → attempt + d = k → d < r →
      chatAttemptsFrom transport cancelled R r attempt lastErr made waited
        = ⟨"", [], (if d = 0 then lastErr else (transport (k - 1)).errOf),
            made + d, waited + 2 ^ (attempt - 1) * (2 ^ d - 1)⟩ := by
  intro d
  induction d with
  | zero =>
    intro attempt r lastErr made waited ha hk hd
    obtain ⟨r2, rfl⟩ : ∃ r2, r = r2 + 1 := ⟨r - 1, by omega⟩
    have hak : attempt = k := by omega
    simp only [chatAttemptsFrom]
    rw [if_pos ⟨by omega, by rw [hak]; exact hcancel⟩]
    simp
  | succ d ih =>
    intro attempt r lastErr made waited ha hk hd
    obtain ⟨r2, rfl⟩ : ∃ r2, r = r2 + 1 := ⟨r - 1, by omega⟩
    have hlt : attempt < k := by omega
    have hcfalse : cancelled attempt = false := hnc attempt ha hlt
    obtain ⟨a, rfl⟩ : ∃ a, attempt = a + 1 := ⟨attempt - 1, by omega⟩
    have harith : waited + 2 ^ (a + 1 - 1) + 2 ^ (a + 2 - 1) * (2 ^ d - 1)
        = waited + 2 ^ (a + 1 - 1) * (2 ^ (d + 1) - 1) := by
      obtain ⟨C, hC⟩ : ∃ C, (2:Nat) ^ d = C + 1 :=
        ⟨2 ^ d - 1, by have := Nat.one_le_two_pow (n := d); omega⟩
      have h1 : a + 1 - 1 = a := by omega
      have h2 : a + 2 - 1 = a + 1 := by omega
      rw [h1, h2, pow_succ, pow_succ, hC, Nat.add_sub_cancel]
      have h3 : (C + 1) * 2 - 1 = 2 * C + 1 := by omega
      rw [h3]
      ring
    have herr : ∀ e, transport (a + 1) = .connError e ∨ transport (a + 1) = .streamError e →
        (if d = 0 then some e else (transport (k - 1)).errOf)
          = (transport (k - 1)).errOf := by
      intro e he
      by_cases hd0 : d = 0
      · have hk1 : k - 1 = a + 1 := by omega
        rcases he with he | he <;> rw [if_pos hd0, hk1, he] <;> rfl
      · rw [if_neg hd0]
    cases htr : transport (a + 1) with
    | success c tcs =>
      have hf := hfail (a + 1) hlt
      rw [htr] at hf
      simp [AttemptOutcome.isFailure] at hf
    | connError e =>
      simp only [chatAttemptsFrom, htr]
      rw [if_neg (by simp [hcfalse]), if_pos (Nat.succ_pos a),
          ih (a + 2) r2 (some e) (made + 1) (waited + 2 ^ (a + 1 - 1))
            (by omega) (by omega) (by omega),
          herr e (Or.inl htr),
          if_neg (by omega : ¬ (d + 1 = 0)),
          show made + 1 + d = made + (d + 1) from by omega,
          harith]
    | streamError e =>
      simp only [chatAttemptsFrom, htr]
      rw [if_neg (by simp [hcfalse]), if_pos (Nat.succ_pos a),
          ih (a + 2) r2 (some e) (made + 1) (waited + 2 ^ (a + 1 - 1))
            (by omega) (by omega) (by omega),
          herr e (Or.inr htr),
          if_neg (by omega : ¬ (d + 1 = 0)),
          show made + 1 + d = made + (d + 1) from by omega,
          harith]

/-- C5: if the cancellation signal is set when the retry check before
attempt k runs (k ≥ 1, every earlier attempt having failed with a
transport error), `chat` returns immediately: exactly k attempts were
made, the accumulated backoff stops at the 2^(k-1) - 1 seconds waited
before earlier attempts (the wait before attempt k is not performed), and
the returned error is the last observed error of attempt k-1 — not the
generic cancellation error. -/
theorem chat_cancellation_precedence (transport : Nat → AttemptOutcome)
    (cancelled : Nat → Bool) (R k : Nat)
    (hk1 : 1 ≤ k) (hkR : k ≤ R)
    (hcancel : cancelled k = true)
    (hfail : ∀ j, j < k → (transport j).isFailure = true)
    (hnc : ∀ j, 1 ≤ j → j < k → cancelled j = false) :
    chatModel transport cancelled R
      = ⟨"", [], (transport (k - 1)).errOf, k, 2 ^ (k - 1) - 1⟩
    ∧ ((transport (k - 1)).errOf ≠ some GoError.contextCanceled →
        (chatModel transport cancelled R).err ≠ some GoError.contextCanceled) := by
  have h0 : 0 < k := by omega
  have herr0 : ∀ e, transport 0 = .connError e ∨ transport 0 = .streamError e →
      (if k - 1 = 0 then some e else (transport (k - 1)).errOf)
        = (transport (k - 1)).errOf := by
    intro e he
    by_cases hk0 : k - 1 = 0
    · rcases he with he | he <;> rw [if_pos hk0, hk0, he] <;> rfl
    · rw [if_neg hk0]
  have hmain : chatModel transport cancelled R
      = ⟨"", [], (transport (k - 1)).errOf, k, 2 ^ (k - 1) - 1⟩ := by
    unfold chatModel
    cases htr : transport 0 with
    | success c tcs =>
      have hf := hfail 0 h0
      rw [htr] at hf
      simp [AttemptOutcome.isFailure] at hf
    | connError e =>
      simp only [chatAttemptsFrom, htr]
      rw [if_neg (by simp), if_neg (by omega : ¬ 0 < 0),
          chatAttempts_cancelled transport cancelled R k hcancel hfail hnc
            (k - 1) 1 R (some e) 1 0 (by omega) (by omega) (by omega),
          herr0 e (Or.inl htr),
          show 1 + (k - 1) = k from by omega,
          show 0 + 2 ^ (1 - 1) * (2 ^ (k - 1) - 1) = 2 ^ (k - 1) - 1 from by simp]
    | streamError e =>
      simp only [chatAttemptsFrom, htr]
      rw [if_neg (by simp), if_neg (by omega : ¬ 0 < 0),
          chatAttempts_cancelled transport cancelled R k hcancel hfail hnc
            (k - 1) 1 R (some e) 1 0 (by omega) (by omega) (by omega),
          herr0 e (Or.inr htr),
          show 1 + (k - 1) = k from by omega,
          show 0 + 2 ^ (1 - 1) * (2 ^ (k - 1) - 1) = 2 ^ (k - 1) - 1 from by simp]
  exact ⟨hmain, fun hne => by rw [hmain]; exact hne⟩

theorem chat_cancellation_precedence_witness :
    (chatModel (fun j => .connError (.transportErr j)) (fun j => j == 2) 3).err
        = some (GoError.transportErr 1)
    ∧ (chatModel (fun j => .connError (.transportErr j)) (fun j => j == 2) 3).attempts = 2
    ∧ (chatModel (fun j => .connError (.transportErr j)) (fun j => j == 2) 3).waitedSeconds = 1 := by
  have h := (chat_cancellation_precedence (fun j => .connError (.transportErr j))
    (fun j => j == 2) 3 2 (by omega) (by omega) rfl
    (fun j _ => rfl)
    (fun j h1 h2 => by
      have hj : j = 1 := by omega
      subst hj
      rfl)).1
  rw [h]
  exact ⟨rfl, rfl, rfl⟩

/-! ## The context compressor -/

/-- `estimateChars` of one message: `utf8.RuneCountInString` of the
content plus the argument text of every tool call. -/
def msgChars (m : Msg) : Nat :=
  m.content.length + (m.toolCalls.map (fun tc => tc.function.arguments.length)).sum

/-- `estimateChars` over a whole log. -/
def estimateChars (msgs : List Msg) : Nat := (msgs.map msgChars).sum

/-- The index of the first system-role message, if any. -/
def firstSystemIdx : List Msg → Option Nat
  | [] => none
  | m :: rest =>
    if m.role = ChatMessageRoleSystem then some 0
    else (firstSystemIdx rest).map (· + 1)

/-- `start`: one past the first system message (the `break` in the Go
loop), or 0 when no system message exists. -/
def compressStart (messages : List Msg) : Nat :=
  match firstSystemIdx messages with
  | some i => i + 1
  | none => 0

/-- The first `end` loop of `compressContext`, as a fuel recursion (the
fuel chosen by `shrinkEnd` cannot run out before the loop guard fails,
since `end` grows by one per pass towards the fixed `len(messages)-2`):
walk forward while more than two messages remain past the cursor and the
remaining character estimate exceeds half the hard cap. -/
def shrinkGo (messages : List Msg) (halfCap : Int) : Nat → Nat → Int → Nat
  | 0, endIdx, _ => endIdx
  | fuel + 1, endIdx, kept =>
    if h : endIdx < messages.length - 2 then
      if kept > halfCap then
        shrinkGo messages halfCap fuel (endIdx + 1)
          (kept - (msgChars messages[endIdx] : Int))
      else endIdx
    else endIdx

def shrinkEnd (messages : List Msg) (halfCap : Int) (endIdx : Nat)
    (kept : Int) : Nat :=
  shrinkGo messages halfCap (messages.length - endIdx) endIdx kept

/-- The second `end` loop: extend the cut forward until it lands on a
user-role message (fuel recursion, same argument as for `shrinkGo`). -/
def extendGo (messages : List Msg) : Nat → Nat → Nat
  | 0, endIdx => endIdx
  | fuel + 1, endIdx =>
    if h : endIdx < messages.length then
      if messages[endIdx].role = ChatMessageRoleUser then endIdx
      else extendGo messages fuel (endIdx + 1)
    else endIdx

def extendToUser (messages : List Msg) (endIdx : Nat) : Nat :=
  extendGo messages (messages.length - endIdx) endIdx

/-- The value of `end` after the shrinking loop, entered at `start` with
the estimate of the log past `start`. -/
def compressShrunkEnd (maxContextChars : Nat) (messages : List Msg) : Nat :=
  shrinkEnd messages ((maxContextChars / 2 : Nat) : Int) (compressStart messages)
    ((estimateChars (messages.drop (compressStart messages)) : Nat) : Int)

/-- The final cut point: the shrunken `end` extended to a user boundary. -/
def compressCutEnd (maxContextChars : Nat) (messages : List Msg) : Nat :=
  extendToUser messages (compressShrunkEnd maxContextChars messages)

/-- `oldMsgs := messages[start:end]`. -/
def compressOldMsgs (maxContextChars : Nat) (messages : List Msg) : List Msg :=
  (messages.drop (compressStart messages)).take
    (compressCutEnd maxContextChars messages - compressStart messages)

/-- The synthetic summary pair spliced in place of the old span. -/
def summaryUserMsg (summary : String) : Msg :=
  ⟨ChatMessageRoleUser, "[Previous conversation summary]\n" ++ summary, [], ""⟩

def summaryAckMsg : Msg :=
  ⟨ChatMessageRoleAssistant,
   "Understood. I have the context from our previous conversation.", [], ""⟩

/-- `compressContext`, with the summarization call passed as a function;
the guards appear in the order of the Go early returns. -/
def compressContext (summarize : List Msg → String)
    (compressThreshold maxContextChars : Nat) (messages : List Msg) : List Msg :=
  if estimateChars messages < compressThreshold then messages
  else if compressStart messages ≥ messages.length then messages
  else if compressShrunkEnd maxContextChars messages ≤ compressStart messages then
    messages
  else if compressCutEnd maxContextChars messages ≥ messages.length then messages
  else if summarize (compressOldMsgs maxContextChars messages) = "" then messages
  else
    messages.take (compressStart messages)
      ++ [summaryUserMsg (summarize (compressOldMsgs maxContextChars messages)),
          summaryAckMsg]
      ++ messages.drop (compressCutEnd maxContextChars messages)

theorem extendGo_props (messages : List Msg) :
    ∀ (fuel endIdx : Nat), messages.length - endIdx ≤ fuel →
      endIdx ≤ extendGo messages fuel endIdx ∧
      (extendGo messages fuel endIdx < messages.length →
        ∃ m, messages[extendGo messages fuel endIdx]? = some m
          ∧ m.role = ChatMessageRoleUser) := by
  intro fuel
  induction fuel with
  | zero =>
    intro endIdx hle
    have heq : extendGo messages 0 endIdx = endIdx := rfl
    rw [heq]
    exact ⟨le_refl _, fun h => absurd h (by omega)⟩
  | succ fuel ih =>
    intro endIdx hle
    by_cases h : endIdx < messages.length
    · by_cases hu : messages[endIdx].role = ChatMessageRoleUser
      · have heq : extendGo messages (fuel + 1) endIdx = endIdx := by
          simp only [extendGo]
          rw [dif_pos h, if_pos hu]
        rw [heq]
        exact ⟨le_refl _, fun hh =>
          ⟨messages[endIdx], List.getElem?_eq_getElem h, hu⟩⟩
      · have heq : extendGo messages (fuel + 1) endIdx
            = extendGo messages fuel (endIdx + 1) := by
          simp only [extendGo]
          rw [dif_pos h, if_neg hu]
        rw [heq]
        obtain ⟨h1, h2⟩ := ih (endIdx + 1) (by omega)
        exact ⟨by omega, h2⟩
    · have heq : extendGo messages (fuel + 1) endIdx = endIdx := by
        simp only [extendGo]
        rw [dif_neg h]
      rw [heq]
      exact ⟨le_refl _, fun hh => absurd hh h⟩

theorem firstSystemIdx_spec (messages : List Msg) :
    ∀ i, firstSystemIdx messages = some i →
      ∃ m, messages[i]? = some m ∧ m.role = ChatMessageRoleSystem := by
  induction messages with
  | nil => intro i h; simp [firstSystemIdx] at h
  | cons m rest ih =>
    intro i h
    by_cases hs : m.role = ChatMessageRoleSystem
    · simp only [firstSystemIdx, if_pos hs, Option.some.injEq] at h
      subst h
      exact ⟨m, by simp, hs⟩
    · simp only [firstSystemIdx, if_neg hs] at h
      cases hf : firstSystemIdx rest with
      | none => rw [hf] at h; simp at h
      | some j =>
        rw [hf] at h
        simp at h
        obtain ⟨mm, hmm, hrole⟩ := ih j hf
        subst h
        refine ⟨mm, ?_, hrole⟩
        simpa using hmm

/-- If `start ≥ 1` then the message just before `start` is the system
message the start scan stopped at. -/
theorem compressStart_system (messages : List Msg)
    (h1 : 1 ≤ compressStart messages) :
    ∃ m, messages[compressStart messages - 1]? = some m
      ∧ m.role = ChatMessageRoleSystem := by
  cases hf : firstSystemIdx messages with
  | none =>
    have hcs : compressStart messages = 0 := by unfold compressStart; rw [hf]
    omega
  | some i =>
    have hcs : compressStart messages = i + 1 := by unfold compressStart; rw [hf]
    rw [hcs]
    simpa using firstSystemIdx_spec messages i hf

theorem compressStart_pos_of_head_system (messages : List Msg) (m : Msg)
    (hm : messages[0]? = some m) (hrole : m.role = ChatMessageRoleSystem) :
    1 ≤ compressStart messages := by
  cases messages with
  | nil => simp at hm
  | cons head rest =>
    obtain rfl : head = m := by simpa using hm
    simp [compressStart, firstSystemIdx, hrole]

/-! ## Claim C6 -/

/-- C6: whenever compression performs a splice, the resulting log is the
unchanged prefix before the span, the synthetic summary user message,
immediately followed by the synthetic assistant acknowledgment, then the
unchanged suffix from the cut point on; the cut point carries a user-role
message, so the splice never separates an assistant tool-call message
from its trailing tool-result messages, and a leading system message
stays in the preserved prefix. -/
theorem compress_context_splice (summarize : List Msg → String)
    (compressThreshold maxContextChars : Nat) (messages : List Msg)
    (hchars : ¬ estimateChars messages < compressThreshold)
    (hstart : compressStart messages < messages.length)
    (he0 : compressStart messages < compressShrunkEnd maxContextChars messages)
    (hend : compressCutEnd maxContextChars messages < messages.length)
    (hsum : summarize (compressOldMsgs maxContextChars messages) ≠ "") :
    compressContext summarize compressThreshold maxContextChars messages
      = messages.take (compressStart messages)
        ++ [summaryUserMsg (summarize (compressOldMsgs maxContextChars messages)),
            summaryAckMsg]
        ++ messages.drop (compressCutEnd maxContextChars messages)
    ∧ (∃ m, messages[compressCutEnd maxContextChars messages]? = some m
        ∧ m.role = ChatMessageRoleUser)
    ∧ (∀ m, messages[0]? = some m → m.role = ChatMessageRoleSystem →
        1 ≤ compressStart messages)
    ∧ (∀ (a j : Nat) (ma : Msg), a < j → messages[a]? = some ma →
        ma.role = ChatMessageRoleAssistant →
        (∀ (kk : Nat) (mk2 : Msg), a < kk → kk ≤ j → messages[kk]? = some mk2 →
          mk2.role = ChatMessageRoleTool) →
        ¬ (a < compressCutEnd maxContextChars messages
            ∧ compressCutEnd maxContextChars messages ≤ j)
        ∧ ¬ (a < compressStart messages ∧ compressStart messages ≤ j)) := by
  have hcut : ∃ m, messages[compressCutEnd maxContextChars messages]? = some m
      ∧ m.role = ChatMessageRoleUser := by
    have hp := (extendGo_props messages
      (messages.length - compressShrunkEnd maxContextChars messages)
      (compressShrunkEnd maxContextChars messages) (le_refl _)).2
    exact hp hend
  refine ⟨?_, hcut, ?_, ?_⟩
  · unfold compressContext
    rw [if_neg hchars, if_neg (by omega), if_neg (by omega), if_neg (by omega),
        if_neg hsum]
  · intro m hm hrole
    exact compressStart_pos_of_head_system messages m hm hrole
  · intro a j ma haj hma hmarole htools
    constructor
    · rintro ⟨hc1, hc2⟩
      obtain ⟨mu, hmu, hmurole⟩ := hcut
      have ht := htools (compressCutEnd maxContextChars messages) mu hc1 hc2 hmu
      have : ChatMessageRoleUser = ChatMessageRoleTool := by
        rw [← hmurole, ht]
      exact absurd this (by decide)
    · rintro ⟨hs1, hs2⟩
      have h1s : 1 ≤ compressStart messages := by omega
      obtain ⟨ms, hms, hmsrole⟩ := compressStart_system messages h1s
      by_cases heq : compressStart messages - 1 = a
      · rw [heq, hma] at hms
        have : ms = ma := by simpa using hms.symm
        subst this
        have : ChatMessageRoleSystem = ChatMessageRoleAssistant := by
          rw [← hmsrole, hmarole]
        exact absurd this (by decide)
      · have ht := htools (compressStart messages - 1) ms (by omega) (by omega) hms
        have : ChatMessageRoleSystem = ChatMessageRoleTool := by
          rw [← hmsrole, ht]
        exact absurd this (by decide)

def c6Msgs : List Msg :=
  [⟨"system", "s", [], ""⟩, ⟨"user", "aaaa", [], ""⟩,
   ⟨"assistant", "bbbb", [], ""⟩, ⟨"user", "c", [], ""⟩, ⟨"user", "d", [], ""⟩]

theorem compress_context_splice_witness :
    compressContext (fun _ => "SUM") 1 2 c6Msgs
      = [⟨"system", "s", [], ""⟩,
         ⟨"user", "[Previous conversation summary]\nSUM", [], ""⟩,
         ⟨"assistant", "Understood. I have the context from our previous conversation.",
          [], ""⟩,
         ⟨"user", "c", [], ""⟩, ⟨"user", "d", [], ""⟩] := by
  have h := (compress_context_splice (fun _ => "SUM") 1 2 c6Msgs
    (by decide) (by decide) (by decide) (by decide) (by decide)).1
  rw [h]
  rfl

/-! ## `summarizeMessages` -/

/-- Tool-result truncation: contents longer than 500 are cut and suffixed
with an ellipsis (rune-level embedding of the byte-slice truncation). -/
def truncateContent (s : String) : String :=
  if s.length > 500 then s.take 500 ++ "..." else s

/-- One line of the flattened transcript `summarizeMessages` builds. -/
def renderMsg (m : Msg) : String :=
  if m.role = ChatMessageRoleUser then "User: " ++ m.content ++ "\n"
  else if m.role = ChatMessageRoleAssistant then
    "Assistant: " ++ m.content
      ++ strConcat (m.toolCalls.map (fun tc => "[tool: " ++ tc.function.name ++ "]"))
      ++ "\n"
  else if m.role = ChatMessageRoleTool then
    "Tool result: " ++ truncateContent m.content ++ "\n"
  else ""

/-- The summarization system instruction. -/
def summaryInstruction : String :=
  "Summarize the following conversation concisely. Preserve key decisions, file paths, code changes, and important context. Write in the same language as the conversation. Keep it under 500 characters."

/-- The dedicated two-message prompt of the summarization call. -/
def summaryPrompt (msgs : List Msg) : List Msg :=
  [⟨ChatMessageRoleSystem, summaryInstruction, [], ""⟩,
   ⟨ChatMessageRoleUser, strConcat (msgs.map renderMsg), [], ""⟩]

/-- The contents the `Recv` loop of `summarizeMessages` collects: the
first choice's delta content of every chunk until the stream ends. -/
def collectContents (chunks : List StreamResponse) : String :=
  chunks.foldl
    (fun acc resp =>
      match resp.choices with
      | [] => acc
      | c :: _ => acc ++ c.delta.content) ""

/-- `summarizeMessages`, over a client modelled as call-number → request
messages → stream or error. It calls `CreateChatCompletionStream`
directly, exactly once (call number 0): on error it returns the empty
string, otherwise the concatenated contents. -/
def summarizeMessages
    (client : Nat → List Msg → Except GoError (List StreamResponse))
    (msgs : List Msg) : String :=
  match client 0 (summaryPrompt msgs) with
  | .error _ => ""
  | .ok chunks => collectContents chunks

/-! ## Claim C7 -/

/-- A client that fails transiently: the first call errors, every later
call succeeds. -/
def c7Client : Nat → List Msg → Except GoError (List StreamResponse) :=
  fun callIdx _ =>
    if callIdx = 0 then .error (.transportErr 0)
    else .ok [⟨[⟨⟨"summary text", "", []⟩, "stop"⟩]⟩]

/-- The per-attempt outcome the retrying runner would see over the same
client calls. -/
def c7Transport : Nat → AttemptOutcome :=
  fun attempt =>
    match c7Client attempt (summaryPrompt []) with
    | .error e => .connError e
    | .ok chunks =>
      .success (processStreamResponse chunks).1 (processStreamResponse chunks).2

/-- C7 counterexample: the summarization call is not routed through the
retry-capable request path. With a transiently failing client (first
call errors, the next succeeds) and retry budget 3, `summarizeMessages`
returns the empty string after its single direct call — no retry — while
the retrying runner `chat` over the same per-call outcomes succeeds on
its second attempt. -/
theorem summarize_not_retried :
    summarizeMessages c7Client [] = ""
    ∧ (chatModel c7Transport (fun _ => false) 3).err = none
    ∧ (chatModel c7Transport (fun _ => false) 3).content = "summary text"
    ∧ (chatModel c7Transport (fun _ => false) 3).attempts = 2 :=
  ⟨rfl, rfl, rfl, rfl⟩

/-- C7 amended: the compressor's summarization call is a single direct
stream request outside the retry path: whenever the client's first call
fails, `summarizeMessages` returns the empty string and
`compressContext` leaves the log unchanged — compression is skipped for
that check without any retry. -/
theorem summarize_single_shot
    (client : Nat → List Msg → Except GoError (List StreamResponse))
    (hfail : ∀ req, ∃ e, client 0 req = .error e)
    (compressThreshold maxContextChars : Nat) (messages : List Msg) :
    (∀ ms, summarizeMessages client ms = "")
    ∧ compressContext (summarizeMessages client) compressThreshold
        maxContextChars messages = messages := by
  have hsum : ∀ ms, summarizeMessages client ms = "" := by
    intro ms
    obtain ⟨e, he⟩ := hfail (summaryPrompt ms)
    simp [summarizeMessages, he]
  refine ⟨hsum, ?_⟩
  unfold compressContext
  simp [hsum]

/-- A client that always fails. -/
def c7FailClient : Nat → List Msg → Except GoError (List StreamResponse) :=
  fun _ _ => .error (.transportErr 7)

def c7Msgs : List Msg :=
  [⟨"system", "s", [], ""⟩, ⟨"user", "aaaa", [], ""⟩,
   ⟨"assistant", "bbbb", [], ""⟩, ⟨"user", "c", [], ""⟩, ⟨"user", "d", [], ""⟩]

theorem summarize_single_shot_witness :
    compressContext (summarizeMessages c7FailClient) 1 2 c7Msgs = c7Msgs :=
  (summarize_single_shot c7FailClient (fun req => ⟨.transportErr 7, rfl⟩)
    1 2 c7Msgs).2

/-! ## The orchestrator `Chat` -/

/-- What one call to `e.chat` returns to the loop. -/
structure TurnResult where
  content : String
  toolCalls : List ToolCall
  err : Option GoError

/-- The assistant message carrying a turn's tool calls. -/
def assistantToolMsg (toolCalls : List ToolCall) : Msg :=
  ⟨ChatMessageRoleAssistant, "", toolCalls, ""⟩

/-- The final assistant text message. -/
def assistantContentMsg (content : String) : Msg :=
  ⟨ChatMessageRoleAssistant, content, [], ""⟩

/-- What `Chat` returns; `none` means the fuel bound was hit (the Go
loop is unbounded; the theorems supply enough fuel). -/
structure ChatLoopResult where
  content : String
  messages : List Msg
  err : Option GoError

/-- The `Chat` loop, one fuel unit per `for` pass: increment the
iteration counter, break on the autonomous cap (returning the log with a
nil error), compress, run the turn, abort on a turn error, on tool calls
append the assistant tool-call message and the tool results and
continue, otherwise append the final assistant text and return it. -/
def chatLoopGo (chatFn : List Msg → TurnResult)
    (compressFn : List Msg → List Msg)
    (execFn : List ToolCall → List Msg)
    (autonomous : Bool) (maxAutonomousIter : Nat) :
    Nat → Nat → List Msg → Option ChatLoopResult
  | 0, _, _ => none
  | fuel + 1, iteration, messages =>
    if autonomous ∧ iteration + 1 > maxAutonomousIter then some ⟨"", messages, none⟩
    else
      let compressed := compressFn messages
      let turn := chatFn compressed
      if turn.err.isSome then some ⟨"", compressed, turn.err⟩
      else if 0 < turn.toolCalls.length then
        chatLoopGo chatFn compressFn execFn autonomous maxAutonomousIter fuel
          (iteration + 1)
          (compressed ++ [assistantToolMsg turn.toolCalls] ++ execFn turn.toolCalls)
      else some ⟨turn.content, compressed ++ [assistantContentMsg turn.content], none⟩

/-- `Chat` entered with iteration counter 0. -/
def ChatLoop (chatFn : List Msg → TurnResult) (compressFn : List Msg → List Msg)
    (execFn : List ToolCall → List Msg) (autonomous : Bool)
    (maxAutonomousIter fuel : Nat) (messages : List Msg) : Option ChatLoopResult :=
  chatLoopGo chatFn compressFn execFn autonomous maxAutonomousIter fuel 0 messages

/-- One tool-calling round of the loop: compress, turn, append the
assistant tool-call message and the executed tool results. -/
def roundStep (chatFn : List Msg → TurnResult) (compressFn : List Msg → List Msg)
    (execFn : List ToolCall → List Msg) (messages : List Msg) : List Msg :=
  compressFn messages ++ [assistantToolMsg (chatFn (compressFn messages)).toolCalls]
    ++ execFn (chatFn (compressFn messages)).toolCalls

theorem chatLoopGo_step_break (chatFn : List Msg → TurnResult)
    (compressFn : List Msg → List Msg) (execFn : List ToolCall → List Msg)
    (auto : Bool) (maxA fuel iteration : Nat) (messages : List Msg)
    (hb : auto ∧ iteration + 1 > maxA) :
    chatLoopGo chatFn compressFn execFn auto maxA (fuel + 1) iteration messages
      = some ⟨"", messages, none⟩ := by
  simp only [chatLoopGo]
  rw [if_pos hb]

theorem chatLoopGo_step_tool (chatFn : List Msg → TurnResult)
    (compressFn : List Msg → List Msg) (execFn : List ToolCall → List Msg)
    (auto : Bool) (maxA fuel iteration : Nat) (messages : List Msg)
    (hnb : ¬ (auto ∧ iteration + 1 > maxA))
    (herr : (chatFn (compressFn messages)).err = none)
    (htool : 0 < (chatFn (compressFn messages)).toolCalls.length) :
    chatLoopGo chatFn compressFn execFn auto maxA (fuel + 1) iteration messages
      = chatLoopGo chatFn compressFn execFn auto maxA fuel (iteration + 1)
          (roundStep chatFn compressFn execFn messages) := by
  simp only [chatLoopGo]
  rw [if_neg hnb,
      show (chatFn (compressFn messages)).err.isSome = false from by rw [herr]; rfl,
      if_neg (by simp), if_pos htool]
  rfl

theorem chatLoopGo_step_final (chatFn : List Msg → TurnResult)
    (compressFn : List Msg → List Msg) (execFn : List ToolCall → List Msg)
    (auto : Bool) (maxA fuel iteration : Nat) (messages : List Msg)
    (hnb : ¬ (auto ∧ iteration + 1 > maxA))
    (herr : (chatFn (compressFn messages)).err = none)
    (hno : ¬ 0 < (chatFn (compressFn messages)).toolCalls.length) :
    chatLoopGo chatFn compressFn execFn auto maxA (fuel + 1) iteration messages
      = some ⟨(chatFn (compressFn messages)).content,
          compressFn messages
            ++ [assistantContentMsg (chatFn (compressFn messages)).content],
          none⟩ := by
  simp only [chatLoopGo]
  rw [if_neg hnb,
      show (chatFn (compressFn messages)).err.isSome = false from by rw [herr]; rfl,
      if_neg (by simp), if_neg hno]

/-! ## Claim C8 -/

theorem chatLoopGo_cap (chatFn : List Msg → TurnResult)
    (compressFn : List Msg → List Msg) (execFn : List ToolCall → List Msg)
    (C : Nat)
    (htool : ∀ ms, 0 < (chatFn ms).toolCalls.length)
    (herr : ∀ ms, (chatFn ms).err = none) :
    ∀ (d iteration : Nat) (messages : List Msg) (fuel : Nat),
      iteration + d = C → d + 1 ≤ fuel →
      chatLoopGo chatFn compressFn execFn true C fuel iteration messages
        = some ⟨"", (roundStep chatFn compressFn execFn)^[d] messages, none⟩ := by
  intro d
  induction d with
  | zero =>
    intro iteration messages fuel hiter hfuel
    obtain ⟨f, rfl⟩ : ∃ f, fuel = f + 1 := ⟨fuel - 1, by omega⟩
    rw [chatLoopGo_step_break chatFn compressFn execFn true C f iteration messages
      ⟨rfl, by omega⟩]
    rfl
  | succ d ih =>
    intro iteration messages fuel hiter hfuel
    obtain ⟨f, rfl⟩ : ∃ f, fuel = f + 1 := ⟨fuel - 1, by omega⟩
    rw [chatLoopGo_step_tool chatFn compressFn execFn true C f iteration messages
        (by rintro ⟨_, hgt⟩; omega) (herr _) (htool _),
        ih (iteration + 1) (roundStep chatFn compressFn execFn messages) f
          (by omega) (by omega)]
    rw [← Function.iterate_succ_apply]

theorem chatLoopGo_fuel_short (chatFn : List Msg → TurnResult)
    (compressFn : List Msg → List Msg) (execFn : List ToolCall → List Msg)
    (C : Nat)
    (htool : ∀ ms, 0 < (chatFn ms).toolCalls.length)
    (herr : ∀ ms, (chatFn ms).err = none) :
    ∀ (fuel iteration : Nat) (messages : List Msg), fuel + iteration ≤ C →
      chatLoopGo chatFn compressFn execFn true C fuel iteration messages = none := by
  intro fuel
  induction fuel with
  | zero => intro iteration messages _; rfl
  | succ fuel ih =>
    intro iteration messages hle
    rw [chatLoopGo_step_tool chatFn compressFn execFn true C fuel iteration messages
        (by rintro ⟨_, hgt⟩; omega) (herr _) (htool _)]
    exact ih (iteration + 1) _ (by omega)

/-- C8: with autonomous mode on and cap C, a model that requests at least
one tool call on every turn (and never errors) terminates the loop after
exactly C iterations: with fuel for C+1 loop passes, `Chat` returns,
with a nil error, the log accumulated by C compress/turn/execute rounds
and empty final text; C passes of fuel are not enough, so the loop ran
exactly C full iterations before the cap broke it. -/
theorem autonomous_cap_terminates (chatFn : List Msg → TurnResult)
    (compressFn : List Msg → List Msg) (execFn : List ToolCall → List Msg)
    (C : Nat) (messages : List Msg)
    (htool : ∀ ms, 0 < (chatFn ms).toolCalls.length)
    (herr : ∀ ms, (chatFn ms).err = none) :
    (∀ fuel, C + 1 ≤ fuel →
      ChatLoop chatFn compressFn execFn true C fuel messages
        = some ⟨"", (roundStep chatFn compressFn execFn)^[C] messages, none⟩)
    ∧ ChatLoop chatFn compressFn execFn true C C messages = none := by
  constructor
  · intro fuel hfuel
    exact chatLoopGo_cap chatFn compressFn execFn C htool herr C 0 messages fuel
      (by omega) hfuel
  · exact chatLoopGo_fuel_short chatFn compressFn execFn C htool herr C 0 messages
      (by omega)

def c8ChatFn : List Msg → TurnResult :=
  fun _ => ⟨"thinking", [⟨"call_t", "function", ⟨"t", "a"⟩⟩], none⟩

def c8ExecFn : List ToolCall → List Msg :=
  fun tcs => tcs.map (fun tc => ⟨ChatMessageRoleTool, "ran", [], tc.id⟩)

theorem autonomous_cap_terminates_witness :
    ChatLoop c8ChatFn id c8ExecFn true 2 3 []
      = some ⟨"", (roundStep c8ChatFn id c8ExecFn)^[2] [], none⟩
    ∧ ChatLoop c8ChatFn id c8ExecFn true 2 2 [] = none := by
  have h := autonomous_cap_terminates c8ChatFn id c8ExecFn 2 []
    (fun _ => by simp [c8ChatFn]) (fun _ => rfl)
  exact ⟨h.1 3 (by omega), h.2⟩

/-! ## Claim C10 -/

theorem processChunk_no_deltas (chunks : List StreamResponse) :
    ∀ st : StreamState,
      (∀ resp ∈ chunks, ∀ choice ∈ resp.choices, choice.delta.toolCalls = []) →
      (chunks.foldl processChunk st).toolCallsMap = st.toolCallsMap := by
  induction chunks with
  | nil => intro st _; rfl
  | cons resp rest ih =>
    intro st hempty
    rw [List.foldl_cons,
        ih _ (fun r hr c hc => hempty r (List.mem_cons_of_mem _ hr) c hc)]
    cases hch : resp.choices with
    | nil => simp [processChunk, hch]
    | cons choice others =>
      have hc := hempty resp (List.mem_cons_self _ _) choice
        (by rw [hch]; exact List.mem_cons_self _ _)
      simp [processChunk, hch, hc]

/-- C10: a stream whose terminal finish reason is `tool_calls` but that
carried no tool-call delta assembles to zero tool-call requests, and the
orchestrator treats a turn built from it as a final text-only turn: on
the first pass it appends the assistant message with the assembled text
and returns it with a nil error — the tool-executing branch is never
taken (the result is the same for every tool executor `execFn`). -/
theorem empty_tool_call_stream_final_turn (chunks : List StreamResponse)
    (chatFn : List Msg → TurnResult) (compressFn : List Msg → List Msg)
    (execFn : List ToolCall → List Msg) (maxAutonomousIter fuel : Nat)
    (autonomous : Bool) (messages : List Msg)
    (hempty : ∀ resp ∈ chunks, ∀ choice ∈ resp.choices, choice.delta.toolCalls = [])
    (hfinish : (chunks.foldl processChunk ⟨"", [], ""⟩).finishReason
        = FinishReasonToolCalls)
    (hcap : 1 ≤ maxAutonomousIter)
    (hchat : ∀ ms, chatFn ms = ⟨(processStreamResponse chunks).1,
        (processStreamResponse chunks).2, none⟩) :
    (processStreamResponse chunks).2 = []
    ∧ ChatLoop chatFn compressFn execFn autonomous maxAutonomousIter (fuel + 1)
        messages
      = some ⟨(processStreamResponse chunks).1,
          compressFn messages
            ++ [assistantContentMsg (processStreamResponse chunks).1],
          none⟩ := by
  have hmap : (chunks.foldl processChunk ⟨"", [], ""⟩).toolCallsMap = [] :=
    processChunk_no_deltas chunks ⟨"", [], ""⟩ hempty
  have hnone : (processStreamResponse chunks).2 = [] := by
    show emitToolCalls _ _ = []
    rw [hmap]
    simp [emitToolCalls]
  refine ⟨hnone, ?_⟩
  rw [ChatLoop,
      chatLoopGo_step_final chatFn compressFn execFn autonomous maxAutonomousIter
        fuel 0 messages
        (by rintro ⟨_, hgt⟩; omega)
        (by rw [hchat])
        (by rw [hchat, hnone]; simp),
      hchat]

def c10Chunks : List StreamResponse :=
  [⟨[⟨⟨"hello", "", []⟩, "tool_calls"⟩]⟩]

def c10ChatFn : List Msg → TurnResult := fun _ => ⟨"hello", [], none⟩

def c10ExecFn : List ToolCall → List Msg :=
  fun _ => [⟨ChatMessageRoleTool, "should never appear", [], "zz"⟩]

theorem empty_tool_call_stream_final_turn_witness :
    (processStreamResponse c10Chunks).2 = []
    ∧ ChatLoop c10ChatFn id c10ExecFn true 20 1 [⟨"user", "hi", [], ""⟩]
      = some ⟨"hello", [⟨"user", "hi", [], ""⟩, ⟨"assistant", "hello", [], ""⟩],
          none⟩ := by
  have h := empty_tool_call_stream_final_turn c10Chunks c10ChatFn id c10ExecFn
    20 0 true [⟨"user", "hi", [], ""⟩]
    (by decide) (by decide) (by omega) (fun _ => rfl)
  exact ⟨h.1, by rw [h.2]; rfl⟩

end Yagi
